import Mathlib

/-
Formal model of the WordsHighliteBot vocabulary store and extractor
(src/bot.py), as a shallow embedding in Lean 4.

Python strings are modelled as Lean `String` and, where character-level
processing matters, as `List Char`.  All helper functions are written with
structural recursion so that concrete instances evaluate inside the kernel.

Modelling notes on fidelity to CPython:
- whitespace (`str.strip`, regex `\s`) is modelled by the ASCII whitespace
  characters; Unicode whitespace is not modelled,
- regex `\w` (for the `\b` word boundary) is modelled by ASCII alphanumerics
  plus underscore; Unicode word characters are not modelled,
- `re.IGNORECASE` is modelled by ASCII lowercasing,
- `int(...)` is modelled for optionally signed digit strings; PEP 515
  underscore grouping is not modelled (no table name produced by the store
  contains grouped digits),
- SQLite's `ORDER BY RANDOM()` is modelled by an explicit `shuffle`
  parameter, about which theorems assume only that it permutes its input,
- storage I/O failures are modelled by an explicit `fault` flag feeding the
  `Except` result that the source's `try/except` converts to a default.
-/

/-- ASCII whitespace, modelling Python's `str.strip` / regex `\s` class. -/
def isWS (c : Char) : Bool :=
  c == ' ' || c == '\t' || c == '\n' || c == '\r' || c == '\x0b' || c == '\x0c'

/-- Remove trailing whitespace characters (right half of Python `str.strip`). -/
def trimRight : List Char → List Char
  | [] => []
  | c :: rest =>
    let r := trimRight rest
    if r = [] then (if isWS c then [] else [c]) else c :: r

/-- Model of Python `str.strip()` on a character list. -/
def trimChars (l : List Char) : List Char :=
  trimRight (l.dropWhile isWS)

/-- Model of Python `str.strip()` on a `String`. -/
def strip (s : String) : String :=
  String.mk (trimChars s.data)

/-- Model of Python `text.split('\n')` (keeps empty pieces, like Python). -/
def splitOnNl : List Char → List (List Char)
  | [] => [[]]
  | c :: rest =>
    if c = '\n' then [] :: splitOnNl rest
    else
      match splitOnNl rest with
      | [] => [[c]]
      | g :: gs => (c :: g) :: gs

/-- Model of Python's substring test `pat in s`. -/
def containsTok : List Char → List Char → Bool
  | [], pat => pat.isEmpty
  | c :: t, pat => pat.isPrefixOf (c :: t) || containsTok t pat

/-- Fuel-driven worker for `replaceAll`; the fuel is the length of the
remaining text, which bounds the number of steps. -/
def replaceAllAux (pat repl : List Char) : Nat → List Char → List Char
  | _, [] => []
  | 0, s => s
  | fuel + 1, c :: rest =>
    if pat.isPrefixOf (c :: rest) then
      repl ++ replaceAllAux pat repl fuel (rest.drop (pat.length - 1))
    else
      c :: replaceAllAux pat repl fuel rest

/-- Model of Python `s.replace(pat, repl)` (replaces every occurrence,
scanning left to right). -/
def replaceAll (pat repl s : List Char) : List Char :=
  replaceAllAux pat repl s.length s

/-- The decimal digit character for `d` (meaningful for `d < 10`). -/
def digitChar (d : Nat) : Char := Char.ofNat (48 + d)

/-- Fuel-driven decimal rendering of a natural number. -/
def natDigitsAux : Nat → Nat → List Char
  | 0, _ => []
  | fuel + 1, n =>
    if n < 10 then [digitChar n]
    else natDigitsAux fuel (n / 10) ++ [digitChar (n % 10)]

/-- Decimal digits of a natural number, most significant first. -/
def natDigits (n : Nat) : List Char := natDigitsAux (n + 1) n

/-- Model of Python `str(i)` for an integer. -/
def intStr (i : Int) : List Char :=
  if i < 0 then '-' :: natDigits i.natAbs else natDigits i.natAbs

/-- Model of `re.sub(r'[^0-9]', '', s)`: keep only decimal digits. -/
def digitsOnly (l : List Char) : List Char := l.filter Char.isDigit

/-- Numeric value of a decimal digit character, if it is one. -/
def digitVal? (c : Char) : Option Nat :=
  if c.isDigit then some (c.toNat - 48) else none

/-- Fold step accumulating the value of a digit string; any non-digit
poisons the result. -/
def digitsValGo (acc : Option Nat) (c : Char) : Option Nat :=
  match acc, digitVal? c with
  | some a, some d => some (10 * a + d)
  | _, _ => none

/-- Value of a non-empty all-digit string, `none` otherwise. -/
def digitsVal? (l : List Char) : Option Nat :=
  match l with
  | [] => none
  | _ => l.foldl digitsValGo (some 0)

/-- Model of Python `int(s)` (ValueError becomes `none`): optional sign,
then decimal digits, surrounding whitespace tolerated. -/
def pyInt? (s0 : List Char) : Option Int :=
  let s := trimChars s0
  match s with
  | [] => none
  | c :: rest =>
    if c = '-' then (digitsVal? rest).map (fun n => -(n : Int))
    else if c = '+' then (digitsVal? rest).map (fun n => (n : Int))
    else (digitsVal? s).map (fun n => (n : Int))

/-
The tenant store.  The SQLite database file is modelled as an association
list from table name to the table's rows (the `word` column values, in
insertion order; the UNIQUE constraint is enforced by the insert model).
-/

/-- The database: table name to rows of the `word` column, creation order. -/
abbrev DB : Type := List (String × List String)

/-- First table with the given name, like a lookup in `sqlite_master`. -/
def lookupTable : DB → String → Option (List String)
  | [], _ => none
  | t :: rest, name => if t.1 = name then some t.2 else lookupTable rest name

/-- Replace the rows of the (first) table with the given name. -/
def updateTable : DB → String → List String → DB
  | [], _, _ => []
  | t :: rest, name, rows =>
    if t.1 = name then (name, rows) :: rest else t :: updateTable rest name rows

/-- `safe_table_name` from src/bot.py: strip all non-digits from `str(chat_id)`
and wrap with the fixed prefix and suffix. -/
def safe_table_name (chat_id : Int) : String :=
  String.mk ("chat_".data ++ digitsOnly (intStr chat_id) ++ "_words".data)

/-- Rows of a tenant's table, empty when the table is missing. -/
def tableRows (db : DB) (chat_id : Int) : List String :=
  (lookupTable db (safe_table_name chat_id)).getD []

/-- `create_chat_table` from src/bot.py: `CREATE TABLE IF NOT EXISTS`. -/
def create_chat_table (db : DB) (chat_id : Int) : DB :=
  if (lookupTable db (safe_table_name chat_id)).isSome then db
  else db ++ [(safe_table_name chat_id, [])]

/-- One iteration of the insert loop in `add_words_to_table`: strip the word,
skip it when empty, and insert it unless the UNIQUE constraint fires
(`sqlite3.IntegrityError` is swallowed without counting). -/
def insertStep (acc : List String × Nat) (w : String) : List String × Nat :=
  let clean := strip w
  if clean = "" then acc
  else if clean ∈ acc.1 then acc
  else (acc.1 ++ [clean], acc.2 + 1)

/-- `add_words_to_table` from src/bot.py: ensure the table exists (the source
checks `sqlite_master` and calls `create_chat_table`, itself
`IF NOT EXISTS`), then run the insert loop and commit.  Returns the number
of newly stored words together with the new database. -/
def add_words_to_table (db : DB) (chat_id : Int) (words : List String) :
    Nat × DB :=
  let name := safe_table_name chat_id
  let db1 := create_chat_table db chat_id
  let rows0 := (lookupTable db1 name).getD []
  let r := words.foldl insertStep (rows0, 0)
  (r.2, updateTable db1 name r.1)

/-- The body of the `try` block of `get_random_words`: a missing table makes
the `SELECT COUNT(*)` raise (`no such table`), and `fault` injects any other
storage I/O error.  `shuffle` stands for `ORDER BY RANDOM()`. -/
def get_random_words_attempt (db : DB) (chat_id : Int) (count : Nat)
    (shuffle : List String → List String) (fault : Bool) :
    Except String (List String) :=
  if fault then Except.error ("storage error") else
  match lookupTable db (safe_table_name chat_id) with
  | none => Except.error ("no such table")
  | some rows =>
    Except.ok
      (if rows.length = 0 then []
       else if rows.length ≤ count then rows
       else (shuffle rows).take count)

/-- `get_random_words` from src/bot.py: the `except` clause logs and leaves
the initial `words = []` as the result. -/
def get_random_words (db : DB) (chat_id : Int) (count : Nat)
    (shuffle : List String → List String) (fault : Bool) : List String :=
  match get_random_words_attempt db chat_id count shuffle fault with
  | Except.ok ws => ws
  | Except.error _ => []

/-- The per-table body of the loop in `get_active_chats`: filter on the
`chat_*_words` naming scheme, recover the id (`ValueError` skips the table),
negate a positive magnitude, and keep the id only when `COUNT(*) > 0`. -/
def activeEntry (t : String × List String) : Option Int :=
  if ("chat_".data).isPrefixOf t.1.data && "_words".data.isSuffixOf t.1.data then
    match pyInt? (replaceAll ("_words".data) [] (replaceAll ("chat_".data) [] t.1.data)) with
    | none => none
    | some n => if 0 < t.2.length then some (if 0 < n then -n else n) else none
  else none

/-- `get_active_chats` from src/bot.py. -/
def get_active_chats (db : DB) : List Int :=
  db.filterMap activeEntry

/-- States of the store reachable through its own operations. -/
inductive Reachable : DB → Prop
  | init : Reachable []
  | create (c : Int) {db : DB} : Reachable db → Reachable (create_chat_table db c)
  | add (c : Int) (ws : List String) {db : DB} :
      Reachable db → Reachable (add_words_to_table db c ws).2

/-- `n` successive calls `add_words_to_table(chat_id, [w])`; returns the final
database and the per-call inserted counts, in call order. -/
def addNTimes (db : DB) (chat_id : Int) (w : String) : Nat → DB × List Nat
  | 0 => (db, [])
  | n + 1 =>
    let r := add_words_to_table db chat_id [w]
    let rest := addNTimes r.2 chat_id w n
    (rest.1, r.1 :: rest.2)

/-
The word extractor (`handle_word_messages` in src/bot.py).
-/

/-- The literal marker token. -/
def markerChars : List Char := "#WordsToLearn".data

/-- The marker token lowercased, for the `re.IGNORECASE` match. -/
def markerLower : List Char := "#wordstolearn".data

/-- ASCII lowercasing, modelling `re.IGNORECASE` for the ASCII marker. -/
def asciiLower (c : Char) : Char :=
  if 65 ≤ c.toNat && c.toNat ≤ 90 then Char.ofNat (c.toNat + 32) else c

/-- Regex `\w` (ASCII fragment), for the `\b` boundary after the marker. -/
def wordChar (c : Char) : Bool := c.isAlphanum || c == '_'

/-- Model of `re.search(r'^\s*#WordsToLearn\b', text, re.IGNORECASE)` being a
match (without `re.MULTILINE`, `^` anchors only at the start of the text). -/
def marker_match (l : List Char) : Bool :=
  let t := l.dropWhile isWS
  markerLower.isPrefixOf (t.map asciiLower) &&
    (match t.drop markerChars.length with
     | [] => true
     | c :: _ => !wordChar c)

/-- The line loop of `handle_word_messages`: skip blank lines, a line
containing the (case-sensitive) marker turns collection mode on and is
dropped, and every later non-blank line is collected, in order. -/
def scanLines : Bool → List (List Char) → List (List Char)
  | _, [] => []
  | found, line :: rest =>
    let clean := trimChars line
    if clean = [] then scanLines found rest
    else if containsTok clean markerChars then scanLines true rest
    else if found then clean :: scanLines found rest
    else scanLines found rest

/-- The pure extraction performed by `handle_word_messages`: strip the text,
require the anchored case-insensitive marker match, then run the line loop;
an empty harvest is reported as `none` (the handler returns early). -/
def extract_words (text : String) : Option (List String) :=
  let t := trimChars text.data
  if marker_match t then
    let ws := scanLines false (splitOnNl t)
    if ws = [] then none else some (ws.map String.mk)
  else none

/-- `handle_word_messages` from src/bot.py, reduced to its effect on the
store: personal chats (`chat_id > 0`) are ignored, and words are added only
when extraction produces a non-empty list. -/
def handle_word_messages (db : DB) (chat_id : Int) (text : String) : DB :=
  if chat_id > 0 then db
  else
    match extract_words text with
    | none => db
    | some ws => (add_words_to_table db chat_id ws).2

/-
Specification-side description of the extraction, written from the claim's
words, to be compared with the source-side `scanLines`.
-/

/-- Modelled from the spec wording: the lines strictly after the first line
containing the marker (empty when no line contains it). -/
def specAfterMarker : List (List Char) → List (List Char)
  | [] => []
  | line :: rest =>
    if containsTok (trimChars line) markerChars then rest
    else specAfterMarker rest

/-- Modelled from the spec wording: all non-empty trimmed lines occurring
after collection mode is enabled, marker lines discarded, original order. -/
def specCollect (lines : List (List Char)) : List (List Char) :=
  ((specAfterMarker lines).map trimChars).filter
    (fun c => !c.isEmpty && !containsTok c markerChars)

/-
The daily broadcast (`send_random_words` in src/bot.py).
-/

/-- The message format of `send_random_words`: fixed Russian header, then
one 1-based numbered line per word. -/
def formatMessage (ws : List String) : String :=
  (ws.enumFrom 1).foldl
    (fun acc p => acc ++ String.mk (natDigits p.1) ++ ". " ++ p.2 ++ "\n")
    "📚 Случайные слова дня для повторения:\n\n"

/-- `send_random_words` from src/bot.py, as the list of deliveries it
performs: enumerate `get_active_chats`, skip `chat_id > 0`, sample five
words, skip when the sample is empty, otherwise send the formatted message. -/
def send_random_words (db : DB) (shuffle : List String → List String) :
    List (Int × String) :=
  (get_active_chats db).filterMap (fun chat_id =>
    if chat_id > 0 then none
    else
      let words := get_random_words db chat_id 5 shuffle false
      if words = [] then none
      else some (chat_id, formatMessage words))

/-
Helper lemmas about the string models.
-/

lemma trimRight_of_not_ws : ∀ l : List Char, (∀ c ∈ l, isWS c = false) → trimRight l = l := by
  intro l h
  induction l with
  | nil => rfl
  | cons c rest ih =>
    have hc : isWS c = false := h c (by simp)
    have hr : trimRight rest = rest := ih (fun x hx => h x (by simp [hx]))
    simp only [trimRight, hr]
    cases rest with
    | nil => simp [hc]
    | cons d t => simp

lemma trimChars_of_not_ws : ∀ l : List Char, (∀ c ∈ l, isWS c = false) → trimChars l = l := by
  intro l h
  unfold trimChars
  cases l with
  | nil => rfl
  | cons c rest =>
    have hc : isWS c = false := h c (by simp)
    rw [List.dropWhile_cons, hc]
    simp only [Bool.false_eq_true, if_false]
    exact trimRight_of_not_ws _ h

lemma trimRight_prefix : ∀ l : List Char, ∃ s, trimRight l ++ s = l := by
  intro l
  induction l with
  | nil => exact ⟨[], rfl⟩
  | cons c rest ih =>
    rcases ih with ⟨s, hs⟩
    simp only [trimRight]
    by_cases hr : trimRight rest = []
    · by_cases hw : isWS c
      · exact ⟨c :: rest, by simp [hr, hw]⟩
      · exact ⟨rest, by simp [hr, hw]⟩
    · refine ⟨s, ?_⟩
      simp [hr, hs]

lemma trimRight_idem : ∀ l : List Char, trimRight (trimRight l) = trimRight l := by
  intro l
  induction l with
  | nil => rfl
  | cons c rest ih =>
    simp only [trimRight]
    by_cases hr : trimRight rest = []
    · by_cases hw : isWS c
      · simp [hr, hw, trimRight]
      · simp [hr, hw, trimRight]
    · simp only [hr, if_false]
      simp only [trimRight, ih, hr, if_false]

lemma dropWhile_head_false : ∀ (l : List Char) (c : Char) (t : List Char),
    l.dropWhile isWS = c :: t → isWS c = false := by
  intro l
  induction l with
  | nil => intro c t h; simp at h
  | cons a rest ih =>
    intro c t h
    rw [List.dropWhile_cons] at h
    by_cases ha : isWS a
    · rw [if_pos (by simp [ha])] at h
      exact ih c t h
    · rw [if_neg (by simp [ha])] at h
      cases h
      simpa using ha

lemma trimChars_idem : ∀ l : List Char, trimChars (trimChars l) = trimChars l := by
  intro l
  show trimChars (trimRight (l.dropWhile isWS)) = trimChars l
  unfold trimChars
  cases hd : trimRight (List.dropWhile isWS l) with
  | nil => rfl
  | cons c t =>
    have hpre : ∃ s, (c :: t) ++ s = List.dropWhile isWS l := by
      rcases trimRight_prefix (List.dropWhile isWS l) with ⟨s, hs⟩
      exact ⟨s, by rw [← hd]; exact hs⟩
    have hc : isWS c = false := by
      rcases hpre with ⟨s, hs⟩
      exact dropWhile_head_false l c (t ++ s) (by rw [← hs]; simp)
    rw [List.dropWhile_cons, hc]
    simp only [Bool.false_eq_true, if_false]
    rw [← hd, trimRight_idem]

lemma strip_idem : ∀ w : String, strip (strip w) = strip w := by
  intro w
  unfold strip
  exact congrArg String.mk (trimChars_idem w.data)

lemma digitChar_isDigit : ∀ d : Nat, d < 10 → (digitChar d).isDigit = true := by
  intro d hd
  interval_cases d <;> decide

lemma digitVal?_digitChar : ∀ d : Nat, d < 10 → digitVal? (digitChar d) = some d := by
  intro d hd
  interval_cases d <;> decide

lemma natDigitsAux_digits : ∀ (fuel n : Nat) (c : Char),
    c ∈ natDigitsAux fuel n → c.isDigit = true := by
  intro fuel
  induction fuel with
  | zero => intro n c hc; simp [natDigitsAux] at hc
  | succ f ih =>
    intro n c hc
    by_cases h : n < 10
    · simp [natDigitsAux, h] at hc
      subst hc
      exact digitChar_isDigit n h
    · simp [natDigitsAux, h] at hc
      rcases hc with hc | hc
      · exact ih _ _ hc
      · subst hc
        exact digitChar_isDigit _ (Nat.mod_lt _ (by omega))

lemma natDigits_digits : ∀ (n : Nat) (c : Char), c ∈ natDigits n → c.isDigit = true :=
  fun n c h => natDigitsAux_digits (n + 1) n c h

lemma natDigitsAux_ne_nil : ∀ fuel n : Nat, natDigitsAux (fuel + 1) n ≠ [] := by
  intro fuel n
  by_cases h : n < 10 <;> simp [natDigitsAux, h]

lemma foldl_digitsValGo : ∀ (fuel n : Nat), n < fuel → ∀ a : Nat,
    (natDigitsAux fuel n).foldl digitsValGo (some a) =
      some (a * 10 ^ (natDigitsAux fuel n).length + n) := by
  intro fuel
  induction fuel with
  | zero => intro n h; omega
  | succ f ih =>
    intro n hn a
    by_cases h : n < 10
    · simp [natDigitsAux, h, List.foldl, digitsValGo, digitVal?_digitChar n h]
      omega
    · have h10 : n / 10 < f := by omega
      simp only [natDigitsAux, h, if_false]
      rw [List.foldl_append, ih (n / 10) h10 a]
      simp only [List.foldl, digitsValGo, digitVal?_digitChar (n % 10) (by omega)]
      rw [List.length_append]
      simp only [List.length_cons, List.length_nil, Nat.zero_add]
      rw [pow_succ, ← mul_assoc]
      generalize a * 10 ^ (natDigitsAux f (n / 10)).length = M
      simp only [Option.some.injEq]
      omega

lemma digitsVal?_natDigits : ∀ n : Nat, digitsVal? (natDigits n) = some n := by
  intro n
  have hne : natDigits n ≠ [] := natDigitsAux_ne_nil n n
  cases hd : natDigits n with
  | nil => exact absurd hd hne
  | cons c t =>
    have : digitsVal? (c :: t) = (c :: t).foldl digitsValGo (some 0) := rfl
    rw [this, ← hd]
    rw [show natDigits n = natDigitsAux (n + 1) n from rfl]
    rw [foldl_digitsValGo (n + 1) n (by omega) 0]
    simp

lemma not_ws_of_isDigit : ∀ c : Char, c.isDigit = true → isWS c = false := by
  intro c h
  cases hw : isWS c
  · rfl
  · exfalso
    simp [isWS] at hw
    rcases hw with ((((rfl | rfl) | rfl) | rfl) | rfl) | rfl <;> exact absurd h (by decide)

lemma pyInt?_natDigits : ∀ n : Nat, pyInt? (natDigits n) = some (n : Int) := by
  intro n
  have htrim : trimChars (natDigits n) = natDigits n :=
    trimChars_of_not_ws _ (fun c hc => not_ws_of_isDigit c (natDigits_digits n c hc))
  unfold pyInt?
  rw [htrim]
  cases hd : natDigits n with
  | nil => exact absurd hd (natDigitsAux_ne_nil n n)
  | cons c t =>
    have hc : c.isDigit = true := natDigits_digits n c (by rw [hd]; simp)
    have h1 : ¬ c = '-' := by rintro rfl; exact absurd hc (by decide)
    have h2 : ¬ c = '+' := by rintro rfl; exact absurd hc (by decide)
    simp only [h1, h2, if_false]
    rw [← hd, digitsVal?_natDigits n]
    rfl

lemma digitsOnly_intStr : ∀ i : Int, digitsOnly (intStr i) = natDigits i.natAbs := by
  intro i
  have hall : ∀ c ∈ natDigits i.natAbs, c.isDigit = true := natDigits_digits i.natAbs
  unfold intStr digitsOnly
  by_cases h : i < 0
  · simp only [h, if_true]
    rw [List.filter_cons]
    simp only [show ('-').isDigit = false from rfl]
    simp only [Bool.false_eq_true, if_false]
    exact List.filter_eq_self.mpr hall
  · simp only [h, if_false]
    exact List.filter_eq_self.mpr hall

lemma natDigits_inj : ∀ a b : Nat, natDigits a = natDigits b → a = b := by
  intro a b h
  have ha := digitsVal?_natDigits a
  rw [h, digitsVal?_natDigits b] at ha
  simpa using ha.symm

lemma safe_name_data : ∀ c : Int,
    (safe_table_name c).data = "chat_".data ++ natDigits c.natAbs ++ "_words".data := by
  intro c
  unfold safe_table_name
  rw [digitsOnly_intStr]

lemma isPrefixOf_append_self : ∀ l r : List Char, l.isPrefixOf (l ++ r) = true := by
  intro l r
  induction l with
  | nil => cases r <;> rfl
  | cons c t ih => simp [List.isPrefixOf, ih]

lemma isSuffixOf_append_self : ∀ l r : List Char, r.isSuffixOf (l ++ r) = true := by
  intro l r
  unfold List.isSuffixOf
  rw [List.reverse_append]
  exact isPrefixOf_append_self _ _

lemma replaceAllAux_no_head : ∀ (p : Char) (pt repl : List Char) (fuel : Nat) (s : List Char),
    p ∉ s → replaceAllAux (p :: pt) repl fuel s = s := by
  intro p pt repl fuel s
  induction s generalizing fuel with
  | nil => intro _; cases fuel <;> rfl
  | cons c rest ih =>
    intro hp
    cases fuel with
    | zero => rfl
    | succ f =>
      have hpc : (p == c) = false := by
        simp only [beq_eq_false_iff_ne, ne_eq]
        rintro rfl
        exact hp (by simp)
      simp only [replaceAllAux, List.isPrefixOf, hpc, Bool.false_and,
        Bool.false_eq_true, if_false]
      rw [ih f (fun h => hp (by simp [h]))]

lemma replaceAllAux_chat : ∀ (t : List Char) (fuel : Nat), 'c' ∉ t →
    replaceAllAux ("chat_".data) [] (fuel + 5) ("chat_".data ++ t) = t := by
  intro t fuel h
  show replaceAllAux ("chat_".data) [] (fuel + 4 + 1) ('c' :: ("hat_".data ++ t)) = t
  rw [show replaceAllAux ("chat_".data) [] (fuel + 4 + 1) ('c' :: ("hat_".data ++ t)) =
      if ("chat_".data).isPrefixOf ('c' :: ("hat_".data ++ t)) then
        [] ++ replaceAllAux ("chat_".data) [] (fuel + 4)
          (("hat_".data ++ t).drop ("chat_".data.length - 1))
      else 'c' :: replaceAllAux ("chat_".data) [] (fuel + 4) ("hat_".data ++ t) from rfl]
  have hpre : "chat_".data.isPrefixOf ('c' :: ("hat_".data ++ t)) = true :=
    isPrefixOf_append_self ("chat_".data) t
  rw [hpre]
  simp only [if_true, List.nil_append]
  have hdrop : ("hat_".data ++ t).drop ("chat_".data.length - 1) = t := by
    show ("hat_".data ++ t).drop ("hat_".data.length) = t
    exact List.drop_left _ _
  rw [hdrop]
  exact replaceAllAux_no_head 'c' "hat_".data [] (fuel + 4) t h

lemma replaceAll_chat : ∀ t : List Char, 'c' ∉ t →
    replaceAll ("chat_".data) [] ("chat_".data ++ t) = t := by
  intro t h
  unfold replaceAll
  rw [show ("chat_".data ++ t).length = t.length + 5 by simp [List.length_append]]
  exact replaceAllAux_chat t t.length h

lemma replaceAllAux_words : ∀ (t : List Char) (fuel : Nat),
    (∀ c ∈ t, c.isDigit = true) → t.length ≤ fuel →
    replaceAllAux ("_words".data) [] (fuel + 6) (t ++ "_words".data) = t := by
  intro t
  induction t with
  | nil =>
    intro fuel _ _
    show replaceAllAux ("_words".data) [] (fuel + 5 + 1) ('_' :: "words".data) = []
    rw [show replaceAllAux ("_words".data) [] (fuel + 5 + 1) ('_' :: "words".data) =
        if ("_words".data).isPrefixOf ('_' :: "words".data) then
          [] ++ replaceAllAux ("_words".data) [] (fuel + 5)
            ("words".data.drop ("_words".data.length - 1))
        else '_' :: replaceAllAux ("_words".data) [] (fuel + 5) "words".data from rfl]
    have hpre : "_words".data.isPrefixOf ('_' :: "words".data) = true := by decide
    rw [hpre]
    simp only [if_true, List.nil_append]
    have hdrop0 : ("words".data).drop ("_words".data.length - 1) = ([] : List Char) := rfl
    rw [hdrop0]
    cases fuel <;> rfl
  | cons d t' ih =>
    intro fuel hdig hlen
    cases fuel with
    | zero => simp at hlen
    | succ f =>
      show replaceAllAux ("_words".data) [] (f + 6 + 1) (d :: (t' ++ "_words".data)) = d :: t'
      have hd : ('_' == d) = false := by
        simp only [beq_eq_false_iff_ne, ne_eq]
        intro he
        exact absurd (hdig d (by simp)) (by rw [← he]; decide)
      rw [show replaceAllAux ("_words".data) [] (f + 6 + 1) (d :: (t' ++ "_words".data)) =
          if ("_words".data).isPrefixOf (d :: (t' ++ "_words".data)) then
            [] ++ replaceAllAux ("_words".data) [] (f + 6)
              ((t' ++ "_words".data).drop ("_words".data.length - 1))
          else d :: replaceAllAux ("_words".data) [] (f + 6) (t' ++ "_words".data) from rfl]
      have hpre : "_words".data.isPrefixOf (d :: (t' ++ "_words".data)) = false := by
        simp only [List.isPrefixOf, hd, Bool.false_and]
      rw [hpre]
      simp only [Bool.false_eq_true, if_false]
      rw [ih f (fun c hc => hdig c (by simp [hc])) (by simpa using hlen)]

lemma replaceAll_words : ∀ t : List Char, (∀ c ∈ t, c.isDigit = true) →
    replaceAll ("_words".data) [] (t ++ "_words".data) = t := by
  intro t h
  unfold replaceAll
  rw [show (t ++ "_words".data).length = t.length + 6 by simp [List.length_append]]
  exact replaceAllAux_words t t.length h (Nat.le_refl _)

lemma replace_chain : ∀ dg : List Char, (∀ c ∈ dg, c.isDigit = true) →
    replaceAll ("_words".data) []
      (replaceAll ("chat_".data) [] ("chat_".data ++ (dg ++ "_words".data))) = dg := by
  intro dg hdg
  have hc : 'c' ∉ dg ++ "_words".data := by
    intro h
    rcases List.mem_append.mp h with h | h
    · exact absurd (hdg _ h) (by decide)
    · revert h; decide
  rw [replaceAll_chat _ hc]
  exact replaceAll_words dg hdg

lemma activeEntry_safe : ∀ (c : Int) (rows : List String),
    activeEntry (safe_table_name c, rows) =
      if rows = [] then none else some (-(c.natAbs : Int)) := by
  intro c rows
  have hdata : (safe_table_name c).data =
      "chat_".data ++ (natDigits c.natAbs ++ "_words".data) := by
    rw [safe_name_data, List.append_assoc]
  unfold activeEntry
  simp only [hdata]
  have hpre : "chat_".data.isPrefixOf
      ("chat_".data ++ (natDigits c.natAbs ++ "_words".data)) = true :=
    isPrefixOf_append_self _ _
  have hsuf : "_words".data.isSuffixOf
      ("chat_".data ++ (natDigits c.natAbs ++ "_words".data)) = true := by
    rw [← List.append_assoc]
    exact isSuffixOf_append_self _ _
  rw [hpre, hsuf]
  simp only [Bool.and_self, if_true]
  rw [replace_chain (natDigits c.natAbs) (natDigits_digits c.natAbs)]
  rw [pyInt?_natDigits]
  cases rows with
  | nil => simp
  | cons w ws =>
    simp only [List.length_cons, Nat.succ_eq_add_one]
    rw [if_pos (by omega)]
    have hne : ¬ (w :: ws = []) := by simp
    rw [if_neg hne]
    congr 1
    by_cases h0 : 0 < (c.natAbs : Int)
    · rw [if_pos h0]
    · rw [if_neg h0]
      omega

lemma activeEntry_of_empty : ∀ nm : String, activeEntry (nm, []) = none := by
  intro nm
  unfold activeEntry
  by_cases h : ("chat_".data.isPrefixOf nm.data && "_words".data.isSuffixOf nm.data) = true
  · rw [if_pos h]
    cases pyInt? (replaceAll ("_words".data) [] (replaceAll ("chat_".data) [] nm.data)) with
    | none => rfl
    | some n => simp
  · rw [if_neg h]

lemma lookup_update_self : ∀ (db : DB) (nm : String) (rows' : List String),
    (lookupTable db nm).isSome = true →
    lookupTable (updateTable db nm rows') nm = some rows' := by
  intro db nm rows'
  induction db with
  | nil => intro h; simp [lookupTable] at h
  | cons t rest ih =>
    intro h
    by_cases he : t.1 = nm
    · simp [updateTable, lookupTable, he]
    · simp only [updateTable, lookupTable, he, if_false] at h ⊢
      exact ih h

lemma lookup_update_ne : ∀ (db : DB) (nm nm' : String) (rows' : List String),
    nm' ≠ nm → lookupTable (updateTable db nm rows') nm' = lookupTable db nm' := by
  intro db nm nm' rows' hne
  induction db with
  | nil => rfl
  | cons t rest ih =>
    by_cases he : t.1 = nm
    · simp only [updateTable, he, if_pos]
      simp only [lookupTable]
      rw [if_neg (fun h => hne h.symm), if_neg (by rw [he]; exact fun h => hne h.symm)]
    · simp only [updateTable, he, if_neg, ite_false]
      simp only [lookupTable, ih]

lemma lookup_append_self : ∀ (db : DB) (nm : String) (rs : List String),
    lookupTable db nm = none → lookupTable (db ++ [(nm, rs)]) nm = some rs := by
  intro db nm rs
  induction db with
  | nil => intro _; simp [lookupTable]
  | cons t rest ih =>
    intro h
    simp only [lookupTable] at h
    by_cases he : t.1 = nm
    · rw [if_pos he] at h; cases h
    · rw [if_neg he] at h
      simp only [List.cons_append, lookupTable, he, if_neg, ite_false]
      exact ih h

lemma lookup_append_ne : ∀ (db : DB) (nm nm' : String) (rs : List String),
    nm' ≠ nm → lookupTable (db ++ [(nm, rs)]) nm' = lookupTable db nm' := by
  intro db nm nm' rs hne
  induction db with
  | nil =>
    simp only [List.nil_append, lookupTable]
    rw [if_neg (fun h => hne h.symm)]
  | cons t rest ih =>
    simp only [List.cons_append, lookupTable]
    by_cases he : t.1 = nm'
    · rw [if_pos he, if_pos he]
    · rw [if_neg he, if_neg he]
      exact ih

lemma lookup_mem : ∀ (db : DB) (nm : String) (rows : List String),
    lookupTable db nm = some rows → (nm, rows) ∈ db := by
  intro db nm rows
  induction db with
  | nil => intro h; cases h
  | cons t rest ih =>
    intro h
    simp only [lookupTable] at h
    by_cases he : t.1 = nm
    · rw [if_pos he] at h
      injection h with h2
      have ht : t = (nm, rows) := by
        cases t
        simp only [Prod.mk.injEq]
        exact ⟨he, h2⟩
      exact List.mem_cons.mpr (Or.inl ht.symm)
    · rw [if_neg he] at h
      exact List.mem_cons_of_mem _ (ih h)

lemma mem_update : ∀ (db : DB) (nm : String) (rows' : List String) (t : String × List String),
    t ∈ updateTable db nm rows' → t ∈ db ∨ t = (nm, rows') := by
  intro db nm rows' t
  induction db with
  | nil => intro h; cases h
  | cons u rest ih =>
    intro h
    by_cases he : u.1 = nm
    · simp only [updateTable, he, if_pos] at h
      rcases List.mem_cons.mp h with h | h
      · right; exact h
      · left; exact List.mem_cons_of_mem _ h
    · simp only [updateTable, he, if_neg, ite_false] at h
      rcases List.mem_cons.mp h with h | h
      · left; exact h ▸ List.mem_cons_self _ _
      · rcases ih h with h | h
        · left; exact List.mem_cons_of_mem _ h
        · right; exact h

lemma lookup_create_self : ∀ (db : DB) (c : Int),
    lookupTable (create_chat_table db c) (safe_table_name c) = some (tableRows db c) := by
  intro db c
  unfold create_chat_table tableRows
  cases h : lookupTable db (safe_table_name c) with
  | none => simp only [h, Option.isSome_none, Bool.false_eq_true, if_false,
      Option.getD_none]
            exact lookup_append_self db _ [] h
  | some rows => simp [h]

lemma lookup_create_ne : ∀ (db : DB) (c : Int) (nm' : String),
    nm' ≠ safe_table_name c →
    lookupTable (create_chat_table db c) nm' = lookupTable db nm' := by
  intro db c nm' hne
  unfold create_chat_table
  by_cases h : (lookupTable db (safe_table_name c)).isSome = true
  · rw [if_pos h]
  · rw [if_neg h]
    exact lookup_append_ne db _ _ _ hne

lemma add_lookup_ne : ∀ (db : DB) (c : Int) (ws : List String) (nm' : String),
    nm' ≠ safe_table_name c →
    lookupTable (add_words_to_table db c ws).2 nm' = lookupTable db nm' := by
  intro db c ws nm' hne
  unfold add_words_to_table
  simp only []
  rw [lookup_update_ne _ _ _ _ hne]
  exact lookup_create_ne db c nm' hne

lemma mk_ne_empty_of_ne_nil : ∀ l : List Char, l ≠ [] → String.mk l ≠ "" := by
  intro l h he
  apply h
  have : (String.mk l).data = ("" : String).data := by rw [he]
  simpa using this

lemma foldl_insertStep_wf : ∀ (ws : List String) (acc : List String × Nat),
    acc.1.Nodup → (∀ w ∈ acc.1, strip w = w ∧ w ≠ "") →
    (ws.foldl insertStep acc).1.Nodup ∧
      ∀ w ∈ (ws.foldl insertStep acc).1, strip w = w ∧ w ≠ "" := by
  intro ws
  induction ws with
  | nil => exact fun acc h1 h2 => ⟨h1, h2⟩
  | cons w ws ih =>
    intro acc h1 h2
    simp only [List.foldl_cons]
    by_cases he : strip w = ""
    · simp only [insertStep, he, if_pos]
      exact ih acc h1 h2
    · by_cases hm : strip w ∈ acc.1
      · simp only [insertStep, he, hm, if_neg, ite_false, if_pos, ite_true]
        exact ih acc h1 h2
      · simp only [insertStep, he, hm, if_neg, ite_false]
        apply ih
        · rw [List.nodup_append]
          refine ⟨h1, List.nodup_singleton _, ?_⟩
          intro a ha hb
          rw [List.mem_singleton.mp hb] at ha
          exact hm ha
        · intro x hx
          rcases List.mem_append.mp hx with hx | hx
          · exact h2 x hx
          · rw [List.mem_singleton.mp hx]
            exact ⟨strip_idem w, he⟩

lemma wf_create : ∀ (db : DB) (c : Int),
    (∀ t ∈ db, t.2.Nodup ∧ ∀ w ∈ t.2, strip w = w ∧ w ≠ "") →
    ∀ t ∈ create_chat_table db c, t.2.Nodup ∧ ∀ w ∈ t.2, strip w = w ∧ w ≠ "" := by
  intro db c h t ht
  unfold create_chat_table at ht
  by_cases hs : (lookupTable db (safe_table_name c)).isSome = true
  · rw [if_pos hs] at ht
    exact h t ht
  · rw [if_neg hs] at ht
    rcases List.mem_append.mp ht with ht | ht
    · exact h t ht
    · rw [List.mem_singleton.mp ht]
      exact ⟨List.nodup_nil, by simp⟩

lemma reachable_wf : ∀ {db : DB}, Reachable db →
    ∀ t ∈ db, t.2.Nodup ∧ ∀ w ∈ t.2, strip w = w ∧ w ≠ "" := by
  intro db h
  induction h with
  | init => simp
  | create c h ih => exact wf_create _ c ih
  | @add c ws db' h ih =>
    intro t ht
    unfold add_words_to_table at ht
    simp only [] at ht
    have hwf1 : ∀ t ∈ create_chat_table db' c,
        t.2.Nodup ∧ ∀ w ∈ t.2, strip w = w ∧ w ≠ "" := wf_create _ c ih
    have hrows0 : ((lookupTable (create_chat_table db' c) (safe_table_name c)).getD []).Nodup ∧
        ∀ w ∈ (lookupTable (create_chat_table db' c) (safe_table_name c)).getD [],
          strip w = w ∧ w ≠ "" := by
      cases hl : lookupTable (create_chat_table db' c) (safe_table_name c) with
      | none => simp
      | some rows =>
        simp only [Option.getD_some]
        exact hwf1 _ (lookup_mem _ _ _ hl)
    have hfold := foldl_insertStep_wf ws
      ((lookupTable (create_chat_table db' c) (safe_table_name c)).getD [], 0)
      hrows0.1 hrows0.2
    rcases mem_update _ _ _ _ ht with ht | ht
    · exact hwf1 t ht
    · rw [ht]
      exact hfold

lemma tableRows_create : ∀ (db : DB) (c : Int),
    (lookupTable (create_chat_table db c) (safe_table_name c)).getD [] = tableRows db c := by
  intro db c
  rw [lookup_create_self]
  rfl

lemma add_single_new : ∀ (db : DB) (c : Int) (w : String),
    strip w = w → w ≠ "" → w ∉ tableRows db c →
    (add_words_to_table db c [w]).1 = 1 ∧
      tableRows (add_words_to_table db c [w]).2 c = tableRows db c ++ [w] := by
  intro db c w hs hne hmem
  unfold add_words_to_table
  simp only [List.foldl_cons, List.foldl_nil]
  rw [tableRows_create]
  have hstep : insertStep (tableRows db c, 0) w = (tableRows db c ++ [w], 1) := by
    unfold insertStep
    simp only [hs]
    rw [if_neg hne, if_neg hmem]
  rw [hstep]
  constructor
  · rfl
  · unfold tableRows
    rw [lookup_update_self]
    · rfl
    · rw [lookup_create_self]
      rfl

lemma add_single_dup : ∀ (db : DB) (c : Int) (w : String),
    strip w = w → w ∈ tableRows db c →
    (add_words_to_table db c [w]).1 = 0 ∧
      tableRows (add_words_to_table db c [w]).2 c = tableRows db c := by
  intro db c w hs hmem
  unfold add_words_to_table
  simp only [List.foldl_cons, List.foldl_nil]
  rw [tableRows_create]
  have hstep : insertStep (tableRows db c, 0) w = (tableRows db c, 0) := by
    unfold insertStep
    simp only [hs]
    by_cases he : w = ""
    · rw [if_pos he]
    · rw [if_neg he, if_pos hmem]
  rw [hstep]
  constructor
  · rfl
  · unfold tableRows
    rw [lookup_update_self]
    · rfl
    · rw [lookup_create_self]
      rfl

lemma addNTimes_dup : ∀ (n : Nat) (db : DB) (c : Int) (w : String),
    strip w = w → w ∈ tableRows db c →
    (addNTimes db c w n).2 = List.replicate n 0 ∧
      tableRows (addNTimes db c w n).1 c = tableRows db c := by
  intro n
  induction n with
  | zero => intro db c w _ _; exact ⟨rfl, rfl⟩
  | succ m ih =>
    intro db c w hs hmem
    have hd := add_single_dup db c w hs hmem
    have hmem' : w ∈ tableRows (add_words_to_table db c [w]).2 c := by
      rw [hd.2]; exact hmem
    have hrec := ih (add_words_to_table db c [w]).2 c w hs hmem'
    unfold addNTimes
    simp only []
    constructor
    · rw [List.replicate_succ]
      rw [hrec.1, hd.1]
    · rw [hrec.2, hd.2]

lemma safe_table_name_eq_iff : ∀ A B : Int,
    safe_table_name A = safe_table_name B ↔ A.natAbs = B.natAbs := by
  intro A B
  constructor
  · intro h
    have hd : (safe_table_name A).data = (safe_table_name B).data := by rw [h]
    rw [safe_name_data, safe_name_data] at hd
    have h1 := List.append_cancel_right hd
    have h2 := List.append_cancel_left h1
    exact natDigits_inj _ _ h2
  · intro h
    unfold safe_table_name
    rw [digitsOnly_intStr, digitsOnly_intStr, h]

lemma isEmpty_false_of_ne_nil : ∀ l : List Char, l ≠ [] → l.isEmpty = false := by
  intro l h
  cases l with
  | nil => exact absurd rfl h
  | cons c t => rfl

lemma specAfterMarker_cons_pos : ∀ (l : List Char) (rest : List (List Char)),
    containsTok (trimChars l) markerChars = true →
    specAfterMarker (l :: rest) = rest := by
  intro l rest h
  unfold specAfterMarker
  rw [if_pos h]

lemma specAfterMarker_cons_neg : ∀ (l : List Char) (rest : List (List Char)),
    ¬ containsTok (trimChars l) markerChars = true →
    specAfterMarker (l :: rest) = specAfterMarker rest := by
  intro l rest h
  conv_lhs => unfold specAfterMarker
  rw [if_neg h]

lemma scanLines_true : ∀ lines : List (List Char),
    scanLines true lines =
      (lines.map trimChars).filter (fun c => !c.isEmpty && !containsTok c markerChars) := by
  intro lines
  induction lines with
  | nil => rfl
  | cons l rest ih =>
    by_cases h0 : trimChars l = []
    · simp [scanLines, h0, ih, List.filter_cons]
    · have hie := isEmpty_false_of_ne_nil _ h0
      by_cases h1 : containsTok (trimChars l) markerChars = true
      · simp [scanLines, h0, h1, ih, List.filter_cons, hie]
      · simp [scanLines, h0, h1, ih, List.filter_cons, hie]

lemma scanLines_false : ∀ lines : List (List Char),
    scanLines false lines = specCollect lines := by
  intro lines
  induction lines with
  | nil => rfl
  | cons l rest ih =>
    by_cases h1 : containsTok (trimChars l) markerChars = true
    · have h0 : ¬ (trimChars l = []) := by
        intro he
        rw [he] at h1
        exact absurd h1 (by decide)
      unfold specCollect
      rw [specAfterMarker_cons_pos l rest h1]
      simp [scanLines, h0, h1, scanLines_true rest]
    · unfold specCollect
      rw [specAfterMarker_cons_neg l rest h1]
      by_cases h0 : trimChars l = []
      · simp [scanLines, h0, ih]
        rfl
      · simp [scanLines, h0, h1, ih]
        rfl

lemma count_active_update : ∀ (db : DB) (nm : String) (r : List String) (v : Int),
    (∀ rs, activeEntry (nm, rs) ≠ some v) →
    List.count v (get_active_chats (updateTable db nm r)) =
      List.count v (get_active_chats db) := by
  intro db nm r v hno
  induction db with
  | nil => rfl
  | cons t rest ih =>
    unfold get_active_chats at ih ⊢
    by_cases he : t.1 = nm
    · rw [show updateTable (t :: rest) nm r = (nm, r) :: rest by
        unfold updateTable; rw [if_pos he]]
      have ht : activeEntry t ≠ some v := by
        have hteq : t = (nm, t.2) := by
          cases t
          simp only [Prod.mk.injEq]
          exact ⟨he, trivial⟩
        rw [hteq]
        exact hno t.2
      rw [List.filterMap_cons, List.filterMap_cons]
      cases ha : activeEntry (nm, r) with
      | none =>
        cases hb : activeEntry t with
        | none => rfl
        | some u =>
          have hu : ¬ (v = u) := by
            intro hv
            rw [← hv] at hb
            exact ht hb
          have hu2 : ¬ (u = v) := fun h => hu h.symm
          rw [List.count_cons]
          simp [hu, hu2]
      | some u =>
        have hu : ¬ (v = u) := by
          intro hv
          rw [← hv] at ha
          exact hno r ha
        have hu2 : ¬ (u = v) := fun h => hu h.symm
        cases hb : activeEntry t with
        | none =>
          rw [List.count_cons]
          simp [hu, hu2]
        | some u2 =>
          have hv1 : ¬ (v = u2) := by
            intro hv
            rw [← hv] at hb
            exact ht hb
          have hv2 : ¬ (u2 = v) := fun h => hv1 h.symm
          rw [List.count_cons, List.count_cons]
          simp [hu, hu2, hv1, hv2]
    · rw [show updateTable (t :: rest) nm r = t :: updateTable rest nm r by
        simp only [updateTable]
        rw [if_neg he]]
      rw [List.filterMap_cons, List.filterMap_cons]
      cases hb : activeEntry t with
      | none => exact ih
      | some u =>
        rw [List.count_cons, List.count_cons, ih]

lemma count_active_append_empty : ∀ (db : DB) (nm : String) (v : Int),
    List.count v (get_active_chats (db ++ [(nm, [])])) =
      List.count v (get_active_chats db) := by
  intro db nm v
  unfold get_active_chats
  rw [List.filterMap_append]
  rw [show List.filterMap activeEntry [(nm, [])] = [] by
    simp [List.filterMap_cons, activeEntry_of_empty]]
  rw [List.append_nil]

lemma sample_subset : ∀ (db : DB) (c : Int) (k : Nat)
    (sh : List String → List String),
    (∀ l, List.Perm (sh l) l) →
    ∀ w ∈ get_random_words db c k sh false, w ∈ tableRows db c := by
  intro db c k sh hsh w hw
  unfold get_random_words get_random_words_attempt at hw
  simp only [Bool.false_eq_true, if_false] at hw
  cases hl : lookupTable db (safe_table_name c) with
  | none => rw [hl] at hw; cases hw
  | some rows =>
    rw [hl] at hw
    simp only [] at hw
    have htr : tableRows db c = rows := by unfold tableRows; rw [hl]; rfl
    rw [htr]
    by_cases h0 : rows.length = 0
    · rw [if_pos h0] at hw; cases hw
    · rw [if_neg h0] at hw
      by_cases hk : rows.length ≤ k
      · rw [if_pos hk] at hw; exact hw
      · rw [if_neg hk] at hw
        exact (hsh rows).mem_iff.mp (List.take_subset _ _ hw)

/-- Claim C1: for every tenant and every word w (a word being trimmed and
non-empty, per the data model) not yet stored for that tenant, inserting w
N >= 1 times across N calls to `add_words_to_table` leaves exactly one stored
copy of w, and the per-call inserted counts are 1 on the first call and 0 on
every later call; the duplicate inserts are silently absorbed. -/
theorem dedup_idempotent : ∀ (db : DB) (c : Int) (w : String) (n : Nat),
    strip w = w → w ≠ "" → w ∉ tableRows db c → 1 ≤ n →
    (addNTimes db c w n).2 = 1 :: List.replicate (n - 1) 0 ∧
    List.count w (tableRows (addNTimes db c w n).1 c) = 1 := by
  intro db c w n hs hne hmem hn
  cases n with
  | zero => omega
  | succ m =>
    have h1 := add_single_new db c w hs hne hmem
    have hmem' : w ∈ tableRows (add_words_to_table db c [w]).2 c := by
      rw [h1.2]; simp
    have h2 := addNTimes_dup m (add_words_to_table db c [w]).2 c w hs hmem'
    unfold addNTimes
    simp only []
    constructor
    · rw [h2.1, h1.1]
      simp
    · rw [h2.2, h1.2]
      rw [List.count_append]
      rw [List.count_eq_zero.mpr hmem]
      simp

/-- Witness for C1 at a concrete input: three inserts of the word into a
fresh store for tenant -5. -/
theorem dedup_idempotent_witness :
    (addNTimes [] (-5) "hi" 3).2 = 1 :: List.replicate (3 - 1) 0 ∧
    List.count ("hi") (tableRows (addNTimes [] (-5) "hi" 3).1 (-5)) = 1 :=
  dedup_idempotent [] (-5) "hi" 3 (by decide) (by decide) (by decide) (by decide)

/-- Claim C3: for a store state reachable through the store's own operations
and any permutation model of `ORDER BY RANDOM()`, `get_random_words` returns
exactly min(W, k) items for a tenant holding W words, all drawn from the
tenant's stored set, without repeats; for W = 0 the result is empty. -/
theorem sampling_bound : ∀ (db : DB) (c : Int) (k : Nat)
    (sh : List String → List String),
    Reachable db → (∀ l, List.Perm (sh l) l) →
    (get_random_words db c k sh false).length = min (tableRows db c).length k ∧
    (∀ w ∈ get_random_words db c k sh false, w ∈ tableRows db c) ∧
    (get_random_words db c k sh false).Nodup ∧
    ((tableRows db c).length = 0 → get_random_words db c k sh false = []) := by
  intro db c k sh hr hsh
  cases hl : lookupTable db (safe_table_name c) with
  | none =>
    have hres : get_random_words db c k sh false = [] := by
      simp [get_random_words, get_random_words_attempt, hl]
    have htr : tableRows db c = [] := by
      unfold tableRows
      rw [hl]
      rfl
    rw [hres, htr]
    simp
  | some rows =>
    have hres : get_random_words db c k sh false =
        if rows.length = 0 then []
        else if rows.length ≤ k then rows else (sh rows).take k := by
      simp [get_random_words, get_random_words_attempt, hl]
    have htr : tableRows db c = rows := by
      unfold tableRows
      rw [hl]
      rfl
    have hnd : rows.Nodup := (reachable_wf hr _ (lookup_mem _ _ _ hl)).1
    refine ⟨?_, sample_subset db c k sh hsh, ?_, ?_⟩
    · rw [hres, htr]
      by_cases h0 : rows.length = 0
      · rw [if_pos h0]
        simp [h0]
      · rw [if_neg h0]
        by_cases hk : rows.length ≤ k
        · rw [if_pos hk]
          exact (Nat.min_eq_left hk).symm
        · rw [if_neg hk]
          rw [List.length_take, (hsh rows).length_eq]
          omega
    · rw [hres]
      by_cases h0 : rows.length = 0
      · rw [if_pos h0]
        exact List.nodup_nil
      · rw [if_neg h0]
        by_cases hk : rows.length ≤ k
        · rw [if_pos hk]
          exact hnd
        · rw [if_neg hk]
          exact List.Nodup.sublist (List.take_sublist _ _) ((hsh rows).symm.nodup hnd)
    · rw [hres, htr]
      intro h0
      rw [if_pos h0]

/-- Witness for C3 at a concrete input: a reachable store with two words for
tenant -5, sampled with k = 1 and the identity permutation. -/
theorem sampling_bound_witness :
    (get_random_words (add_words_to_table [] (-5) ["a", "b"]).2 (-5) 1 id false).length =
      min (tableRows (add_words_to_table [] (-5) ["a", "b"]).2 (-5)).length 1 ∧
    (get_random_words (add_words_to_table [] (-5) ["a", "b"]).2 (-5) 1 id false).Nodup :=
  ⟨(sampling_bound (add_words_to_table [] (-5) ["a", "b"]).2 (-5) 1 id
      (Reachable.add (-5) ["a", "b"] Reachable.init) (fun l => List.Perm.refl l)).1,
   (sampling_bound (add_words_to_table [] (-5) ["a", "b"]).2 (-5) 1 id
      (Reachable.add (-5) ["a", "b"] Reachable.init) (fun l => List.Perm.refl l)).2.2.1⟩

/-- Claim C9: `get_random_words` never propagates an error: for an unknown
tenant (missing table) it returns the empty list, and whenever the try-block
body of the call ends in an error, the call returns the empty list. -/
theorem sample_error_defaults : ∀ (db : DB) (c : Int) (k : Nat)
    (sh : List String → List String),
    (lookupTable db (safe_table_name c) = none →
      get_random_words db c k sh false = []) ∧
    (∀ (fault : Bool) (e : String),
      get_random_words_attempt db c k sh fault = Except.error e →
      get_random_words db c k sh fault = []) := by
  intro db c k sh
  constructor
  · intro h
    simp [get_random_words, get_random_words_attempt, h]
  · intro fault e h
    unfold get_random_words
    rw [h]

/-- Witness for C9 at a concrete input: the empty store has no table for
tenant 7, and an injected storage fault also yields the empty sample. -/
theorem sample_error_defaults_witness :
    get_random_words [] 7 5 id false = [] ∧ get_random_words [] 7 5 id true = [] :=
  ⟨(sample_error_defaults [] 7 5 id).1 rfl,
   (sample_error_defaults [] 7 5 id).2 true ("storage error") rfl⟩

/-- Claim C10: in every store state reachable through the store's own
operations, every stored word equals its own trim and is non-empty, and so
does every word returned by `get_random_words`. -/
theorem stored_words_trimmed : ∀ db : DB, Reachable db →
    (∀ t ∈ db, ∀ w ∈ t.2, strip w = w ∧ w ≠ "") ∧
    (∀ (c : Int) (k : Nat) (sh : List String → List String),
      (∀ l, List.Perm (sh l) l) →
      ∀ w ∈ get_random_words db c k sh false, strip w = w ∧ w ≠ "") := by
  intro db hr
  constructor
  · intro t ht w hw
    exact (reachable_wf hr t ht).2 w hw
  · intro c k sh hsh w hw
    have hmem := sample_subset db c k sh hsh w hw
    unfold tableRows at hmem
    cases hl : lookupTable db (safe_table_name c) with
    | none =>
      rw [hl] at hmem
      simp at hmem
    | some rows =>
      rw [hl] at hmem
      simp only [Option.getD_some] at hmem
      exact (reachable_wf hr _ (lookup_mem _ _ _ hl)).2 w hmem

/-- Witness for C10 at a concrete input: the word stored from the raw text
with surrounding spaces comes back trimmed and non-empty. -/
theorem stored_words_trimmed_witness : strip ("hi") = "hi" ∧ "hi" ≠ "" :=
  (stored_words_trimmed (add_words_to_table [] (-3) [" hi "]).2
      (Reachable.add (-3) [" hi "] Reachable.init)).2
    (-3) 5 id (fun l => List.Perm.refl l) "hi" (by decide)

/-- Claim C4: on any store made of store-derived namespaces,
`get_active_chats` yields exactly the tenants holding at least one word, each
reconstructed as the negated magnitude of its id (the recovered id is always
treated as a group id; negating a zero magnitude leaves 0); namespaces with
zero words are excluded. -/
theorem active_chats_characterization : ∀ L : List (Int × List String),
    get_active_chats (L.map (fun p => (safe_table_name p.1, p.2))) =
      L.filterMap (fun p => if p.2 = [] then none else some (-(p.1.natAbs : Int))) := by
  intro L
  induction L with
  | nil => rfl
  | cons p L ih =>
    unfold get_active_chats at ih ⊢
    by_cases h : p.2 = []
    · have h1 : activeEntry (safe_table_name p.1, p.2) = none := by
        rw [activeEntry_safe, if_pos h]
      simp only [List.map_cons, List.filterMap_cons, h1, if_pos h]
      exact ih
    · have h1 : activeEntry (safe_table_name p.1, p.2) = some (-(p.1.natAbs : Int)) := by
        rw [activeEntry_safe, if_neg h]
      simp only [List.map_cons, List.filterMap_cons, h1, if_neg h]
      rw [ih]

/-- Counterexample to claim C2 as stated: the tenants 5 and -5 are distinct,
yet the word inserted for tenant 5 is visible in tenant -5's sample, and the
insert makes tenant -5 appear active, because both ids share the namespace
key chat_5_words. -/
theorem isolation_cex :
    (5 : Int) ≠ (-5 : Int) ∧
    "x" ∈ get_random_words (add_words_to_table [] 5 ["x"]).2 (-5) 5 id false ∧
    (-(5 : Int)) ∈ get_active_chats (add_words_to_table [] 5 ["x"]).2 := by
  decide

/-- Claim C2 as amended: for tenants of distinct magnitudes (in particular
any two distinct group tenants), inserting words for tenant A changes neither
tenant B's sample nor B's multiplicity in the active-tenant list. -/
theorem isolation_distinct_magnitudes : ∀ (db : DB) (A B : Int)
    (ws : List String) (k : Nat) (sh : List String → List String),
    A.natAbs ≠ B.natAbs →
    get_random_words (add_words_to_table db A ws).2 B k sh false =
      get_random_words db B k sh false ∧
    List.count (-(B.natAbs : Int)) (get_active_chats (add_words_to_table db A ws).2) =
      List.count (-(B.natAbs : Int)) (get_active_chats db) := by
  intro db A B ws k sh h
  have hname : safe_table_name B ≠ safe_table_name A := by
    intro he
    exact h ((safe_table_name_eq_iff B A).mp he).symm
  constructor
  · have hl : lookupTable (add_words_to_table db A ws).2 (safe_table_name B) =
        lookupTable db (safe_table_name B) := add_lookup_ne db A ws _ hname
    unfold get_random_words get_random_words_attempt
    rw [hl]
  · unfold add_words_to_table
    simp only []
    have hno : ∀ rs, activeEntry (safe_table_name A, rs) ≠ some (-(B.natAbs : Int)) := by
      intro rs hsome
      rw [activeEntry_safe] at hsome
      by_cases hrs : rs = []
      · rw [if_pos hrs] at hsome
        cases hsome
      · rw [if_neg hrs] at hsome
        injection hsome with hv
        apply h
        omega
    rw [count_active_update _ _ _ _ hno]
    unfold create_chat_table
    by_cases hc : (lookupTable db (safe_table_name A)).isSome = true
    · rw [if_pos hc]
    · rw [if_neg hc]
      exact count_active_append_empty db _ _

/-- Witness for the amended C2 at a concrete input: tenants -7 and -5. -/
theorem isolation_distinct_magnitudes_witness :
    get_random_words (add_words_to_table [] (-7) ["x"]).2 (-5) 5 id false =
      get_random_words [] (-5) 5 id false ∧
    List.count (-((-5 : Int).natAbs : Int))
        (get_active_chats (add_words_to_table [] (-7) ["x"]).2) =
      List.count (-((-5 : Int).natAbs : Int)) (get_active_chats []) :=
  isolation_distinct_magnitudes [] (-7) (-5) ["x"] 5 id (by decide)

/-- Counterexample to claim C5 as stated: a namespace of magnitude zero is
reconstructed as the non-negative tenant id 0 and still receives a delivery,
because the loop skips only strictly positive ids. -/
theorem broadcast_nonneg_cex :
    (send_random_words (add_words_to_table [] 0 ["x"]).2 id).map Prod.fst = [0] ∧
    ¬ ((0 : Int) < 0) := by
  decide

/-- Claim C5 as amended: every delivery performed by `send_random_words`
targets a non-positive tenant id; any tenant with a strictly positive
reconstructed id is never sent a delivery. -/
theorem broadcast_sends_nonpositive : ∀ (db : DB)
    (sh : List String → List String) (i : Int),
    i ∈ (send_random_words db sh).map Prod.fst → i ≤ 0 := by
  intro db sh i hi
  rcases List.mem_map.mp hi with ⟨p, hp, hpi⟩
  unfold send_random_words at hp
  rcases List.mem_filterMap.mp hp with ⟨a, ha, hfa⟩
  simp only [] at hfa
  by_cases h : a > 0
  · rw [if_pos h] at hfa
    cases hfa
  · rw [if_neg h] at hfa
    by_cases hw : get_random_words db a 5 sh false = []
    · rw [if_pos hw] at hfa
      cases hfa
    · rw [if_neg hw] at hfa
      injection hfa with hfa
      rw [← hfa] at hpi
      simp only [] at hpi
      rw [← hpi]
      omega

/-- Witness for the amended C5 at a concrete input: the delivery for group
tenant -1 exists and its id is non-positive. -/
theorem broadcast_sends_nonpositive_witness :
    (-1 : Int) ∈ (send_random_words (add_words_to_table [] (-1) ["x"]).2 id).map Prod.fst ∧
    (-1 : Int) ≤ 0 :=
  ⟨by decide,
   broadcast_sends_nonpositive (add_words_to_table [] (-1) ["x"]).2 id (-1) (by decide)⟩

/-- Claim C6: for every text whose stripped form matches the anchored
case-insensitive marker test, extraction equals the claim's description:
collect the non-empty trimmed lines after the first line containing the
literal marker token, discarding every marker line, in original order
(reported as `none` when the harvest is empty). -/
theorem extract_matches_claim : ∀ text : String,
    marker_match (trimChars text.data) = true →
    extract_words text =
      (if specCollect (splitOnNl (trimChars text.data)) = [] then none
       else some ((specCollect (splitOnNl (trimChars text.data))).map String.mk)) := by
  intro text h
  unfold extract_words
  simp only [h, if_true]
  rw [scanLines_false]

/-- Witness for C6 at a concrete input. -/
theorem extract_matches_claim_witness :
    extract_words ("#WordsToLearn\nhello") =
      (if specCollect (splitOnNl (trimChars ("#WordsToLearn\nhello").data)) = [] then none
       else some ((specCollect (splitOnNl (trimChars ("#WordsToLearn\nhello").data))).map String.mk)) :=
  extract_matches_claim ("#WordsToLearn\nhello") (by decide)

/-- Claim C7: on the specific input with a blank line and a repeated marker
line, extraction returns exactly the words after the markers, in order. -/
theorem extract_example :
    extract_words ("#WordsToLearn\nfoo\n\nbar\n#WordsToLearn\nbaz") =
      some ["foo", "bar", "baz"] := by
  decide

/-- Claim C8: when the marker does not match at the start of the stripped
text, extraction yields nothing and the handler stores nothing. -/
theorem extract_nonmatch : ∀ (text : String) (db : DB) (c : Int),
    marker_match (trimChars text.data) = false →
    extract_words text = none ∧ handle_word_messages db c text = db := by
  intro text db c h
  have he : extract_words text = none := by
    unfold extract_words
    simp [h]
  refine ⟨he, ?_⟩
  unfold handle_word_messages
  rw [he]
  by_cases hc : c > 0
  · rw [if_pos hc]
  · rw [if_neg hc]

/-- Witness for C8 at the claim's concrete input. -/
theorem extract_nonmatch_witness :
    extract_words ("hello #WordsToLearn\nfoo") = none ∧
    handle_word_messages [] (-1) ("hello #WordsToLearn\nfoo") = [] :=
  extract_nonmatch ("hello #WordsToLearn\nfoo") [] (-1) (by decide)
